import Mathlib

/-!
Verification development for the sequencer repository (file-sequence
representation and range algebra).

The Python sources are shallowly embedded here:

* paths are `List Char` (Python `str`);
* machine integers extracted from paths are `Nat` (the tokenizer only ever
  parses runs of decimal digits, so values are always non-negative);
* code that can raise returns `Option`/`Except`;
* in-place mutation of a `Sequence` is modelled by returning the new value of
  the object; object aliasing (`copy.copy` in `Sequence.insert`) is modelled
  separately with an explicit heap for the copy-isolation claim.

Each definition is annotated with the source function it embeds
(`sequencer.py`, `sequencer_item.py`, `udim_iterator.py`).
-/

namespace Seqr

/-! ## Decimal digits and numbers

Embeds the Python primitives used throughout `sequencer_item.py`:
`str.isdigit`, `int(...)`, `str(...)`, `str.zfill` / `'{:0Nd}'.format`.
-/

/-- Python `c.isdigit()` for a single ASCII character. -/
def isDig (c : Char) : Bool := 48 ≤ c.toNat && c.toNat ≤ 57

/-- Numeric value of a digit character (used by `int(...)` on digit runs). -/
def charVal (c : Char) : Nat := c.toNat - 48

/-- Decimal digit to character, for rendering numbers (`str(n)`). -/
def digitChar10 : Nat → Char
  | 0 => '0' | 1 => '1' | 2 => '2' | 3 => '3' | 4 => '4'
  | 5 => '5' | 6 => '6' | 7 => '7' | 8 => '8' | _ => '9'

/-- Big-endian decimal rendering with fuel (structural recursion, so that
concrete paths evaluate inside the kernel); `decCharsGo (n + 1) n` renders
`n` completely. -/
def decCharsGo (fuel : Nat) (n : Nat) : List Char :=
  match fuel with
  | 0 => []
  | fuel + 1 =>
      if n < 10 then [digitChar10 n]
      else decCharsGo fuel (n / 10) ++ [digitChar10 (n % 10)]

/-- Python `str(n)` for a non-negative integer, as a list of characters. -/
def decimalChars (n : Nat) : List Char := decCharsGo (n + 1) n

/-- Python `int(s)` on a string of decimal digits. -/
def parseNat (cs : List Char) : Nat := cs.foldl (fun a c => a * 10 + charVal c) 0

/-- Zero padding: `str(n).zfill w`, also the behaviour of `'{:0wd}'.format(n)`
for non-negative `n`. -/
def zfill (w : Nat) (cs : List Char) : List Char :=
  List.replicate (w - cs.length) '0' ++ cs

/-- Python `s.isdigit()` for a whole string: non-empty and all digits. -/
def strIsDigit (cs : List Char) : Bool := !cs.isEmpty && cs.all isDig

theorem charVal_digitChar10 (d : Nat) (h : d < 10) : charVal (digitChar10 d) = d := by
  interval_cases d <;> decide

theorem isDig_digitChar10 (d : Nat) (h : d < 10) : isDig (digitChar10 d) = true := by
  interval_cases d <;> decide

theorem decCharsGo_eq_digits :
    ∀ (fuel n : Nat), n ≠ 0 → n ≤ fuel →
      decCharsGo fuel n = ((Nat.digits 10 n).map digitChar10).reverse := by
  intro fuel
  induction fuel with
  | zero => intro n h0 hle; omega
  | succ fuel ih =>
      intro n h0 hle
      rw [Nat.digits_def' (by norm_num : 1 < 10) (Nat.pos_of_ne_zero h0)]
      simp only [decCharsGo, List.map_cons, List.reverse_cons]
      by_cases hlt : n < 10
      · have hq : n / 10 = 0 := Nat.div_eq_of_lt hlt
        have hm : n % 10 = n := Nat.mod_eq_of_lt hlt
        simp [hlt, hq, hm]
      · have hqlt : n / 10 < n := Nat.div_lt_self (Nat.pos_of_ne_zero h0) (by norm_num)
        have hq0 : n / 10 ≠ 0 := by omega
        rw [if_neg hlt, ih (n / 10) hq0 (by omega)]

theorem decimalChars_eq_digits (n : Nat) (h0 : n ≠ 0) :
    decimalChars n = ((Nat.digits 10 n).map digitChar10).reverse :=
  decCharsGo_eq_digits (n + 1) n h0 (Nat.le_succ n)

theorem decimalChars_zero : decimalChars 0 = ['0'] := rfl

theorem isDig_of_mem_decimalChars (n : Nat) (c : Char) (hc : c ∈ decimalChars n) :
    isDig c = true := by
  by_cases h0 : n = 0
  · subst h0
    rw [decimalChars_zero] at hc
    simp at hc
    simp [hc]
    decide
  · rw [decimalChars_eq_digits n h0] at hc
    simp at hc
    rcases hc with ⟨d, hd, rfl⟩
    exact isDig_digitChar10 d (Nat.digits_lt_base (by norm_num) hd)

theorem decimalChars_ne_nil (n : Nat) : decimalChars n ≠ [] := by
  by_cases h0 : n = 0
  · subst h0
    rw [decimalChars_zero]
    simp
  · rw [decimalChars_eq_digits n h0]
    simp
    exact Nat.digits_ne_nil_iff_ne_zero.2 h0

theorem parseNat_append (xs ys : List Char) :
    parseNat (xs ++ ys) = (ys.foldl (fun a c => a * 10 + charVal c) (parseNat xs)) := by
  unfold parseNat
  exact List.foldl_append ..

theorem parseNat_zfill (w : Nat) (cs : List Char) :
    parseNat (zfill w cs) = parseNat cs := by
  unfold zfill
  rw [parseNat_append]
  have hz : parseNat (List.replicate (w - cs.length) '0') = 0 := by
    induction w - cs.length with
    | zero => rfl
    | succ k ih =>
        rw [List.replicate_succ]
        unfold parseNat at *
        simpa using ih
  rw [hz]
  rfl

theorem parseNat_decimalChars (n : Nat) : parseNat (decimalChars n) = n := by
  by_cases h0 : n = 0
  · subst h0
    rw [decimalChars_zero]
    decide
  · rw [decimalChars_eq_digits n h0]
    unfold parseNat
    rw [List.foldl_reverse]
    have key : ∀ (l : List Nat), (∀ d ∈ l, d < 10) →
        ((l.map digitChar10).foldr (fun x y => y * 10 + charVal x) 0) = Nat.ofDigits 10 l := by
      intro l
      induction l with
      | nil => intro _; simp [Nat.ofDigits]
      | cons d rest ih =>
          intro hall
          simp only [List.map_cons, List.foldr_cons, Nat.ofDigits_cons]
          rw [ih (fun x hx => hall x (List.mem_cons_of_mem _ hx)),
            charVal_digitChar10 d (hall d (List.mem_cons_self ..))]
          ring
    rw [key (Nat.digits 10 n) (fun d hd => Nat.digits_lt_base (by norm_num) hd)]
    exact Nat.ofDigits_digits 10 n

theorem decimalChars_length (n : Nat) : (decimalChars n).length = Nat.log 10 n + 1 := by
  by_cases h0 : n = 0
  · subst h0
    rw [decimalChars_zero]
    simp
  · rw [decimalChars_eq_digits n h0]
    simp only [List.length_reverse, List.length_map]
    rw [Nat.digits_len 10 n (by norm_num) h0]

/-! ## The tokenizer (`sequencer_item.py`)

`SequenceItem` splits a path into digit and non-digit parts with
`re.split` over one of the two delimiter patterns of
`SequenceItem._path_delimiter_choices`: `(\.)(\d+)` and `(_[uv])(\d+)`.
-/

/-- Python `os.path.basename` for POSIX paths: everything after the last '/'. -/
def basename (cs : List Char) : List Char :=
  (cs.reverse.takeWhile (fun c => c ≠ '/')).reverse

theorem takeWhile_append_all (p : Char → Bool) (xs ys : List Char)
    (h : ∀ x ∈ xs, p x = true) :
    (xs ++ ys).takeWhile p = xs ++ ys.takeWhile p := by
  induction xs with
  | nil => simp
  | cons x xs ih =>
      have hx := h x (List.mem_cons_self ..)
      simp [List.takeWhile_cons, hx, ih (fun y hy => h y (List.mem_cons_of_mem _ hy))]

theorem basename_append (dir rest : List Char)
    (hdir : dir = [] ∨ dir.getLast? = some '/') (hrest : '/' ∉ rest) :
    basename (dir ++ rest) = rest := by
  unfold basename
  rw [List.reverse_append]
  rw [takeWhile_append_all _ rest.reverse dir.reverse
    (by
      intro x hx
      have : x ∈ rest := List.mem_reverse.1 hx
      simp only [decide_eq_true_eq]
      intro hEq
      exact hrest (hEq ▸ this))]
  have htail : dir.reverse.takeWhile (fun c => c ≠ '/') = [] := by
    rcases hdir with h | h
    · simp [h]
    · have : dir.reverse.head? = some '/' := by
        rw [List.head?_reverse]; exact h
      cases hrev : dir.reverse with
      | nil => rfl
      | cons x xs =>
          rw [hrev] at this
          simp only [List.head?_cons, Option.some_inj] at this
          subst this
          simp [List.takeWhile_cons]
  rw [htail, List.append_nil, List.reverse_reverse]

/-- Lookahead: the next character exists and is a digit. -/
def headDig : List Char → Bool
  | [] => false
  | c :: _ => isDig c

/-- Embeds `re.compile(r'(\.)(\d+)').split(path)` (the first delimiter choice
of `SequenceItem._path_delimiter_choices`), used by
`SequenceItem._split_delimiter`.  `mode = true` means the scanner is inside
the digit run of a match; `acc` is the current (reversed) chunk.  The parts
concatenate back to the input.  Empty parts appear exactly where `re.split`
yields empty strings, except that the trailing empty part after a match at
end-of-string is dropped; `split_by_group` filters out empty parts anyway,
so the observable result is the same. -/
def scanDot (mode : Bool) (acc : List Char) : List Char → List (List Char)
  | [] => [acc.reverse]
  | c :: rest =>
      if mode && isDig c then scanDot true (c :: acc) rest
      else if c = '.' && headDig rest then
        (if mode then acc.reverse :: [] :: ['.'] :: scanDot true [] rest
         else acc.reverse :: ['.'] :: scanDot true [] rest)
      else
        (if mode then acc.reverse :: scanDot false [c] rest
         else scanDot false (c :: acc) rest)

/-- Embeds `re.compile(r'(_[uv])(\d+)').split(path)` (the second delimiter
choice), with the same conventions as `scanDot`.  The delimiter group is a
two-character prefix `_u` or `_v` followed by at least one digit. -/
def scanUV (mode : Bool) (acc : List Char) : List Char → List (List Char)
  | [] => [acc.reverse]
  | c :: rest =>
      if mode && isDig c then scanUV true (c :: acc) rest
      else
        match rest with
        | u :: rest2 =>
            if c = '_' && (u = 'u' || u = 'v') && headDig rest2 then
              (if mode then acc.reverse :: [] :: ['_', u] :: scanUV true [] rest2
               else acc.reverse :: ['_', u] :: scanUV true [] rest2)
            else
              (if mode then acc.reverse :: scanUV false [c] (u :: rest2)
               else scanUV false (c :: acc) (u :: rest2))
        | [] =>
            (if mode then acc.reverse :: [[c]]
             else [(c :: acc).reverse])

/-- Python `''.join(parts)`. -/
def joinL : List (List Char) → List Char
  | [] => []
  | x :: xs => x ++ joinL xs

theorem joinL_scanDot (cs : List Char) :
    ∀ (mode : Bool) (acc : List Char), joinL (scanDot mode acc cs) = acc.reverse ++ cs := by
  induction cs with
  | nil => intro mode acc; simp [scanDot, joinL]
  | cons c rest ih =>
      intro mode acc
      by_cases h2 : (c = '.' && headDig rest) = true
      · have hc : c = '.' := by
          have h := h2
          simp only [Bool.and_eq_true, decide_eq_true_eq] at h
          exact h.1
        have hd : headDig rest = true := by
          have h := h2
          simp only [Bool.and_eq_true, decide_eq_true_eq] at h
          exact h.2
        subst hc
        have hnd : isDig '.' = false := by decide
        cases mode <;> simp [scanDot, hnd, hd, joinL, ih]
      · rw [Bool.not_eq_true] at h2
        by_cases hdg : isDig c = true
        · cases mode <;> simp [scanDot, hdg, h2, joinL, ih]
        · rw [Bool.not_eq_true] at hdg
          cases mode <;> simp [scanDot, hdg, h2, joinL, ih]

theorem joinL_scanUV : ∀ (n : Nat) (cs : List Char), cs.length ≤ n →
    ∀ (mode : Bool) (acc : List Char), joinL (scanUV mode acc cs) = acc.reverse ++ cs := by
  intro n
  induction n with
  | zero =>
      intro cs hcs mode acc
      have : cs = [] := List.length_eq_zero.1 (Nat.le_zero.1 hcs)
      subst this
      simp [scanUV, joinL]
  | succ n ih =>
      intro cs hcs mode acc
      cases cs with
      | nil => simp [scanUV, joinL]
      | cons c rest =>
          have hrest : rest.length ≤ n := by
            have := hcs
            simp only [List.length_cons] at this
            omega
          by_cases h1 : isDig c = true
          · cases rest with
            | nil =>
                cases mode <;> simp [scanUV, h1, joinL]
            | cons u rest2 =>
                have hcu : decide (c = '_') = false := by
                  by_cases h : c = '_'
                  · subst h
                    exact absurd h1 (by decide)
                  · simp [h]
                cases mode <;>
                  simp [scanUV, h1, hcu, joinL, ih (u :: rest2) hrest]
          · rw [Bool.not_eq_true] at h1
            cases rest with
            | nil =>
                cases mode <;> simp [scanUV, h1, joinL]
            | cons u rest2 =>
                have hrest2 : rest2.length ≤ n := by
                  simp only [List.length_cons] at hrest
                  omega
                by_cases h2 : (c = '_' && (u = 'u' || u = 'v') && headDig rest2) = true
                · have h := h2
                  simp only [Bool.and_eq_true, Bool.or_eq_true, decide_eq_true_eq] at h
                  obtain ⟨⟨hc, huv⟩, hd⟩ := h
                  subst hc
                  cases mode <;> simp [scanUV, h1, huv, hd, joinL, ih rest2 hrest2]
                · rw [Bool.not_eq_true] at h2
                  have h := h2
                  simp only [Bool.and_eq_false_iff] at h
                  cases mode <;>
                    simp [scanUV, h1, h2, joinL, ih (u :: rest2) hrest]

theorem scanDot_text (w : List Char) :
    ∀ (rest acc : List Char), (∀ c ∈ w, isDig c = false) → headDig rest = false →
      scanDot false acc (w ++ rest) = scanDot false (w.reverse ++ acc) rest := by
  induction w with
  | nil => intro rest acc _ _; simp
  | cons c w' ih =>
      intro rest acc hw hr
      have hc : isDig c = false := hw c (List.mem_cons_self ..)
      have hdelim : (decide (c = '.') && headDig (w' ++ rest)) = false := by
        cases w' with
        | nil => simp [hr]
        | cons d w'' =>
            have hd : isDig d = false := hw d (List.mem_cons_of_mem _ (List.mem_cons_self ..))
            simp [headDig, hd]
      rw [List.cons_append]
      rw [show scanDot false acc (c :: (w' ++ rest)) = scanDot false (c :: acc) (w' ++ rest) by
        simp [scanDot, hc, hdelim]]
      rw [ih rest (c :: acc) (fun x hx => hw x (List.mem_cons_of_mem _ hx)) hr]
      simp

theorem scanDot_digits (ds : List Char) :
    ∀ (rest acc : List Char), (∀ c ∈ ds, isDig c = true) →
      scanDot true acc (ds ++ rest) = scanDot true (ds.reverse ++ acc) rest := by
  induction ds with
  | nil => intro rest acc _; simp
  | cons c ds' ih =>
      intro rest acc hds
      have hc : isDig c = true := hds c (List.mem_cons_self ..)
      rw [List.cons_append]
      rw [show scanDot true acc (c :: (ds' ++ rest)) = scanDot true (c :: acc) (ds' ++ rest) by
        simp [scanDot, hc]]
      rw [ih rest (c :: acc) (fun x hx => hds x (List.mem_cons_of_mem _ hx))]
      simp

theorem scanDot_close (suffix : List Char) (acc : List Char)
    (hsuf : ∀ c ∈ suffix, isDig c = false) :
    scanDot true acc suffix = acc.reverse :: (if suffix.isEmpty then [] else [suffix]) := by
  cases suffix with
  | nil => simp [scanDot]
  | cons c rest =>
      have hc : isDig c = false := hsuf c (List.mem_cons_self ..)
      have hdelim : (decide (c = '.') && headDig rest) = false := by
        cases rest with
        | nil => simp [headDig]
        | cons d rest' =>
            have hd : isDig d = false := hsuf d (List.mem_cons_of_mem _ (List.mem_cons_self ..))
            simp [headDig, hd]
      rw [show scanDot true acc (c :: rest) = acc.reverse :: scanDot false [c] rest by
        simp [scanDot, hc, hdelim]]
      rw [show scanDot false [c] rest = scanDot false [c] (rest ++ []) by simp]
      rw [scanDot_text rest [] [c]
        (fun x hx => hsuf x (List.mem_cons_of_mem _ hx)) (by simp [headDig])]
      simp [scanDot]

/-- The full split of a one-match string, as produced by the first delimiter
choice: `stem ++ "." ++ digits ++ suffix` splits into the parts
`[stem, ".", digits, suffix]` (with the empty suffix dropped). -/
theorem scanDot_template (stem ds suffix : List Char)
    (hstem : ∀ c ∈ stem, isDig c = false)
    (hds : ∀ c ∈ ds, isDig c = true) (hds0 : ds ≠ [])
    (hsuf : ∀ c ∈ suffix, isDig c = false) :
    scanDot false [] (stem ++ '.' :: (ds ++ suffix)) =
      stem :: ['.'] :: ds :: (if suffix.isEmpty then [] else [suffix]) := by
  rw [scanDot_text stem ('.' :: (ds ++ suffix)) [] hstem (by simp [headDig]; decide)]
  have hhead : headDig (ds ++ suffix) = true := by
    cases ds with
    | nil => exact absurd rfl hds0
    | cons d ds' =>
        have : isDig d = true := hds d (List.mem_cons_self ..)
        simp [headDig, this]
  rw [show scanDot false (stem.reverse ++ []) ('.' :: (ds ++ suffix)) =
      (stem.reverse ++ []).reverse :: ['.'] :: scanDot true [] (ds ++ suffix) by
    simp [scanDot, hhead]]
  rw [scanDot_digits ds suffix [] hds]
  rw [scanDot_close suffix (ds.reverse ++ []) hsuf]
  simp

/-! ## `split_by_group`, delimiter selection and `get_value`
(`SequenceItem._split_delimiter`, `SequenceItem.path_delimiter`,
`SequenceItem.get_value`). -/

/-- The two delimiter choices of `SequenceItem._path_delimiter_choices`, in
priority order: `(\.)(\d+)` first, then `(_[uv])(\d+)`. -/
inductive PDelim where
  | dot
  | uv
deriving DecidableEq

/-- `re_compile.split(path)` for a chosen delimiter. -/
def splitWith : PDelim → List Char → List (List Char)
  | .dot, cs => scanDot false [] cs
  | .uv, cs => scanUV false [] cs

/-- `temp_list[0:2] = [''.join(temp_list[0:2])]` from `split_by_group`:
fuse the first two parts into one (an empty list yields `['']`, exactly as
the Python slice assignment does). -/
def fuseFirstTwo : List (List Char) → List (List Char)
  | [] => [[]]
  | [a] => [a]
  | a :: b :: rest => (a ++ b) :: rest

/-- `SequenceItem._split_delimiter` via `split_by_group`: split with the
compiled delimiter, drop empty strings, fuse the first two parts. -/
def splitByGroup (d : PDelim) (cs : List Char) : List (List Char) :=
  fuseFirstTwo ((splitWith d cs).filter (fun p => !p.isEmpty))

/-- The digit values of a split: `[int(v) for v in parts if v.isdigit()]`. -/
def digitsOf (parts : List (List Char)) : List Nat :=
  (parts.filter (fun p => strIsDigit p)).map parseNat

/-- `SequenceItem.get_value` for a fixed delimiter choice: split the basename
and collect the digit parts; `none` models the `ValueError` raised when no
digit is found. -/
def getValueWith (d : PDelim) (path : List Char) : Option (List Nat) :=
  let ds := digitsOf (splitByGroup d (basename path))
  if ds.isEmpty then none else some ds

/-- `SequenceItem.path_delimiter`: try the delimiter choices in order and keep
the first one under which `get_value` succeeds; `none` models the
`NotImplementedError` raised when no choice yields a digit. -/
def pathDelimiter (path : List Char) : Option PDelim :=
  if (getValueWith .dot path).isSome then some .dot
  else if (getValueWith .uv path).isSome then some .uv
  else none

/-- `SequenceItem.get_value`: the digit values of the basename under the
selected delimiter (a scalar collapses are handled by `getValue1`). -/
def getValue (path : List Char) : Option (List Nat) :=
  (pathDelimiter path).bind fun d => getValueWith d path

/-- `SequenceItem.get_value` when the item is one-dimensional: the single
digit value.  `none` when extraction fails or the item is multi-dimensional
(the present development models one-dimensional sequences). -/
def getValue1 (path : List Char) : Option Nat :=
  match getValue path with
  | some [v] => some v
  | _ => none

/-! ## One-dimensional pound templates

`Sequence('/a/im.####.tif', s, e)` is the canonical use of the library.  Such
a template decomposes as `dir ++ stem ++ "." ++ "#" * pad ++ suffix`; its
format string (`to_format_from_pound`) is `dir ++ stem ++ "." ++ "{:0Pd}" ++
suffix` and rendering value `n` into it gives
`dir ++ stem ++ "." ++ zfill pad (str n) ++ suffix`. -/

structure Template1D where
  dir : List Char
  stem : List Char
  pad : Nat
  suffix : List Char

/-- Well-formedness of a 1D template: the directory part is empty or ends in
'/', the stem (the basename part before the delimiter dot) is non-empty and
free of digits and slashes, and the suffix after the digit run is free of
digits and slashes.  These are the conditions under which the tokenizer
extracts exactly the rendered value back out of a rendered path. -/
def Template1D.WF (t : Template1D) : Prop :=
  (t.dir = [] ∨ t.dir.getLast? = some '/') ∧
  t.stem ≠ [] ∧ (∀ c ∈ t.stem, isDig c = false) ∧ ('/' ∉ t.stem) ∧
  (∀ c ∈ t.suffix, isDig c = false) ∧ ('/' ∉ t.suffix)

instance (t : Template1D) : Decidable t.WF := by
  unfold Template1D.WF
  infer_instance

/-- The path template string itself (what `Sequence.template` stores). -/
def templateStrT (t : Template1D) : List Char :=
  t.dir ++ t.stem ++ '.' :: (List.replicate t.pad '#' ++ t.suffix)

/-- `to_format_from_pound(template).format(n)`: the concrete path of value
`n` under the template (zero-padded to the template's padding width). -/
def renderT (t : Template1D) (n : Nat) : List Char :=
  t.dir ++ t.stem ++ '.' :: (zfill t.pad (decimalChars n) ++ t.suffix)

theorem isDig_of_mem_zfill_decimal (w n : Nat) (c : Char)
    (hc : c ∈ zfill w (decimalChars n)) : isDig c = true := by
  unfold zfill at hc
  rcases List.mem_append.1 hc with h | h
  · have : c = '0' := List.eq_of_mem_replicate h
    subst this
    decide
  · exact isDig_of_mem_decimalChars n c h

theorem slash_not_mem_zfill_decimal (w n : Nat) : '/' ∉ zfill w (decimalChars n) := by
  intro h
  have := isDig_of_mem_zfill_decimal w n '/' h
  exact absurd this (by decide)

theorem zfill_decimal_ne_nil (w n : Nat) : zfill w (decimalChars n) ≠ [] := by
  unfold zfill
  intro h
  rcases List.append_eq_nil.1 h with ⟨_, h2⟩
  exact decimalChars_ne_nil n h2

theorem basename_renderT (t : Template1D) (h : t.WF) (n : Nat) :
    basename (renderT t n) = t.stem ++ '.' :: (zfill t.pad (decimalChars n) ++ t.suffix) := by
  obtain ⟨hdir, _, _, hstem_s, _, hsuf_s⟩ := h
  unfold renderT
  rw [show t.dir ++ t.stem ++ '.' :: (zfill t.pad (decimalChars n) ++ t.suffix) =
    t.dir ++ (t.stem ++ '.' :: (zfill t.pad (decimalChars n) ++ t.suffix)) by simp]
  apply basename_append _ _ hdir
  intro hmem
  rcases List.mem_append.1 hmem with h | h
  · exact hstem_s h
  · rcases List.mem_cons.1 h with h | h
    · exact absurd h (by decide)
    · rcases List.mem_append.1 h with h | h
      · exact slash_not_mem_zfill_decimal t.pad n h
      · exact hsuf_s h

theorem strIsDigit_false_of_mem (l : List Char) (c : Char) (hc : c ∈ l)
    (hnd : isDig c = false) : strIsDigit l = false := by
  unfold strIsDigit
  rcases l with _ | ⟨x, xs⟩
  · simp at hc
  · simp only [List.isEmpty_cons, Bool.not_false, Bool.true_and]
    rw [List.all_eq_false]
    exact ⟨c, hc, by simp [hnd]⟩

theorem strIsDigit_true (l : List Char) (h0 : l ≠ []) (h : ∀ c ∈ l, isDig c = true) :
    strIsDigit l = true := by
  unfold strIsDigit
  rcases l with _ | ⟨x, xs⟩
  · exact absurd rfl h0
  · simp only [List.isEmpty_cons, Bool.not_false, Bool.true_and]
    rw [List.all_eq_true]
    exact fun c hc => h c hc

theorem splitByGroup_dot_renderT (t : Template1D) (h : t.WF) (n : Nat) :
    splitByGroup .dot (basename (renderT t n)) =
      (t.stem ++ ['.']) :: zfill t.pad (decimalChars n) ::
        (if t.suffix.isEmpty then [] else [t.suffix]) := by
  obtain ⟨hdir, hstem0, hstemd, hstem_s, hsufd, hsuf_s⟩ := h
  rw [basename_renderT t ⟨hdir, hstem0, hstemd, hstem_s, hsufd, hsuf_s⟩ n]
  simp only [splitByGroup, splitWith]
  rw [scanDot_template t.stem (zfill t.pad (decimalChars n)) t.suffix hstemd
    (fun c hc => isDig_of_mem_zfill_decimal t.pad n c hc) (zfill_decimal_ne_nil t.pad n) hsufd]
  have hstem_ne : t.stem.isEmpty = false := by
    cases hs : t.stem with
    | nil => exact absurd hs hstem0
    | cons a b => simp
  have hds_ne : (zfill t.pad (decimalChars n)).isEmpty = false := by
    cases hz : zfill t.pad (decimalChars n) with
    | nil => exact absurd hz (zfill_decimal_ne_nil t.pad n)
    | cons a b => simp
  cases hsuf : t.suffix with
  | nil =>
      simp only [hsuf, List.isEmpty_nil, if_true]
      simp [List.filter, hstem_ne, hds_ne, fuseFirstTwo]
  | cons s ss =>
      simp only [hsuf, List.isEmpty_cons, if_false]
      simp [List.filter, hstem_ne, hds_ne, fuseFirstTwo]

theorem getValueWith_dot_renderT (t : Template1D) (h : t.WF) (n : Nat) :
    getValueWith .dot (renderT t n) = some [n] := by
  obtain ⟨hdir, hstem0, hstemd, hstem_s, hsufd, hsuf_s⟩ := h
  unfold getValueWith
  rw [splitByGroup_dot_renderT t ⟨hdir, hstem0, hstemd, hstem_s, hsufd, hsuf_s⟩ n]
  have h1 : strIsDigit (t.stem ++ ['.']) = false :=
    strIsDigit_false_of_mem _ '.' (by simp) (by decide)
  have h2 : strIsDigit (zfill t.pad (decimalChars n)) = true :=
    strIsDigit_true _ (zfill_decimal_ne_nil t.pad n)
      (fun c hc => isDig_of_mem_zfill_decimal t.pad n c hc)
  have hval : parseNat (zfill t.pad (decimalChars n)) = n := by
    rw [parseNat_zfill, parseNat_decimalChars]
  cases hsuf : t.suffix with
  | nil =>
      simp only [hsuf, List.isEmpty_nil, if_true]
      simp [digitsOf, List.filter, h1, h2, hval]
  | cons s ss =>
      have h3 : strIsDigit (s :: ss) = false :=
        strIsDigit_false_of_mem _ s (List.mem_cons_self ..)
          (hsufd s (by simp [hsuf]))
      simp only [hsuf, List.isEmpty_cons, if_false]
      simp [digitsOf, List.filter, h1, h2, h3, hval]

theorem getValue1_renderT (t : Template1D) (h : t.WF) (n : Nat) :
    getValue1 (renderT t n) = some n := by
  have hd := getValueWith_dot_renderT t h n
  unfold getValue1 getValue pathDelimiter
  rw [hd]
  simp [getValueWith_dot_renderT t h n]

/-! ## The UDIM base iterator (`udim_iterator.py`) -/

inductive UdimErr where
  | zeroDiv
deriving DecidableEq

/-- `UdimBaseIterator.__init__` plus a full run of `__iter__`:
start and end are swapped when reversed, and iteration yields
`(value // self.width) * 100 + value % self.width` for `value` in
`range(start, end)`.  A `width` of zero makes the first yield raise
`ZeroDivisionError` (modelled as `.error .zeroDiv`); the constructor itself
raises `ValueError` for a negative start, so the embedded domain is `Nat`. -/
def udimBaseIterate (s0 e0 width : Nat) : Except UdimErr (List Nat) :=
  let s := min s0 e0
  let e := max s0 e0
  if width = 0 ∧ s < e then .error .zeroDiv
  else .ok ((List.range' s (e - s)).map (fun v => v / width * 100 + v % width))

/-! ## Join lemmas for `split_by_group` (claim C8) -/

theorem joinL_filter (l : List (List Char)) :
    joinL (l.filter (fun p => !p.isEmpty)) = joinL l := by
  induction l with
  | nil => rfl
  | cons x xs ih =>
      cases hx : x with
      | nil => simpa [List.filter, joinL] using ih
      | cons a b => simp [List.filter, joinL, ih]

theorem joinL_fuseFirstTwo (l : List (List Char)) :
    joinL (fuseFirstTwo l) = joinL l := by
  match l with
  | [] => rfl
  | [a] => rfl
  | a :: b :: rest => simp [fuseFirstTwo, joinL]

theorem joinL_splitWith (d : PDelim) (cs : List Char) :
    joinL (splitWith d cs) = cs := by
  cases d with
  | dot => simpa using joinL_scanDot cs false []
  | uv => simpa using joinL_scanUV cs.length cs (Nat.le_refl _) false []

theorem joinL_splitByGroup (d : PDelim) (cs : List Char) :
    joinL (splitByGroup d cs) = cs := by
  unfold splitByGroup
  rw [joinL_fuseFirstTwo, joinL_filter, joinL_splitWith]

/-! ## The `Sequence` data model (`sequencer.py`)

A stored element is either a leaf `SequenceItem` (it owns only a path) or a
nested `Sequence` (template, `start_item`, `end_item`, ordered `items`).
Errors are explicit: `.overlap` is the `ValueError` of `add_in_place` for an
overlapping sequence, `.paddingTooLow` the `ValueError` of
`Sequence.set_padding`, and `.valueError` stands for the extraction failures
(`ValueError`/`NotImplementedError` on digit-less paths, `min()`/`max()` of
an empty collection).  The development models one-dimensional sequences, the
scope of the claims. -/

inductive SeqErr where
  | overlap
  | paddingTooLow
  | valueError
deriving DecidableEq

inductive SElem where
  | item (path : List Char)
  | seq (tmpl : List Char) (startIt : SElem) (endIt : SElem) (items : List SElem)

/-- Lift an optional extraction into the error monad. -/
def liftO {α : Type} : Option α → Except SeqErr α
  | some a => Except.ok a
  | none => Except.error SeqErr.valueError

/-- `Sequence._get_range_point(item, 'start')` and
`SequenceAdapter.get_start`: try `item.get_value()` (leaf items), else
`item.get_start()` (nested sequences, recursively through their
`start_item`). -/
def startV : SElem → Except SeqErr Nat
  | .item p => liftO (getValue1 p)
  | .seq _ s _ _ => startV s

/-- `Sequence._get_range_point(item, 'end')` and `SequenceAdapter.get_end`. -/
def endV : SElem → Except SeqErr Nat
  | .item p => liftO (getValue1 p)
  | .seq _ _ e _ => endV e

mutual
/-- `Sequence.as_range('flat')` / `Sequence.__iter__`: the paths of the leaf
items in depth-first order, recursing through nested sequences. -/
def flatPathsE : SElem → List (List Char)
  | .item p => [p]
  | .seq _ _ _ items => flatPathsL items

def flatPathsL : List SElem → List (List Char)
  | [] => []
  | e :: rest => flatPathsE e ++ flatPathsL rest
end

/-- `[item.get_value() for item in self]` over the flat iteration.  The source
extracts values one at a time as the scan proceeds; extracting them up front
is equivalent whenever every extraction succeeds, which is the scope of the
claims below. -/
def flatVals (items : List SElem) : Except SeqErr (List Nat) :=
  (flatPathsL items).mapM (fun p => liftO (getValue1 p))

/-- The format token `{:0wd}` produced by `to_format_from_pound`. -/
def fmtTok (w : Nat) : List Char :=
  '{' :: ':' :: '0' :: (decimalChars w ++ ['d', '}'])

/-- Scanner for `to_format_from_pound` (conversion.py): `run` counts the
'#' characters of the current run; each maximal run of w '#'s becomes
`{:0wd}`. -/
def toFmtPoundGo (run : Nat) : List Char → List Char
  | [] => if run = 0 then [] else fmtTok run
  | c :: rest =>
      if c = '#' then toFmtPoundGo (run + 1) rest
      else if run = 0 then c :: toFmtPoundGo 0 rest
      else fmtTok run ++ c :: toFmtPoundGo 0 rest

/-- `conversion.to_format_from_pound(path)`. -/
def toFormatFromPound (cs : List Char) : List Char := toFmtPoundGo 0 cs

/-- `Sequence.get_format_path()`; the model covers pound-notation sequences
(a '#' in the basename selects the pound codec, and no other codec of
`conversion.REPR_SEQUENCES` validates such a template). -/
def fmtPath : SElem → List Char
  | .item p => toFormatFromPound p
  | .seq t _ _ _ => toFormatFromPound t

/-- `Sequence.has_matching_name(sequence)`: equal format paths. -/
def hasMatchingName (a b : SElem) : Bool := fmtPath a == fmtPath b

/-- `Sequence._is_left_of(first, second)`:
`first.get_start() < second.get_end() and first.get_end() < second.get_start()`.
The four range points are extracted up front; every completed evaluation path
of the source's short-circuited `values_overlap` touches the same four
extractions, so this is behaviourally equivalent. -/
def isLeftOfE (a b : SElem) : Except SeqErr Bool := do
  let fs ← startV a
  let fe ← endV a
  let ss ← startV b
  let se ← endV b
  pure (decide (fs < se) && decide (fe < ss))

/-- `Sequence.values_overlap(sequence)`: `not (self < sequence or self > sequence)`. -/
def valuesOverlapE (a b : SElem) : Except SeqErr Bool := do
  let l ← isLeftOfE a b
  let g ← isLeftOfE b a
  pure (!(l || g))

/-- `Sequence.overlaps(sequence)`: ranges intersect and names match. -/
def overlapsE (a b : SElem) : Except SeqErr Bool := do
  let v ← valuesOverlapE a b
  pure (v && hasMatchingName a b)

/-- `Sequence.contains(item)` for a leaf item freshly built by another
sequence: the identity test `item in self` is false for objects the sequence
does not itself store, after which the item's path is searched among the
flattened paths. -/
def containsB (s : SElem) (p : List Char) : Bool := (flatPathsE s).contains p

/-- `Sequence.fits(sequence)`: the ranges interleave (`not self < seq and not
self > seq`) and the sequences overlap, and no flat item of the argument is
contained in `self`. -/
def fitsE (a b : SElem) : Except SeqErr Bool := do
  let l ← isLeftOfE a b
  let g ← isLeftOfE b a
  let ov ← overlapsE a b
  if !l && !g && ov then
    pure ((flatPathsE b).all (fun p => !(containsB a p)))
  else
    pure false

/-- Python `list.insert(position, x)`, including the clamping of negative and
oversized positions. -/
def pyInsert {α : Type} (l : List α) (pos : Int) (x : α) : List α :=
  let n : Int := Int.ofNat l.length
  let p : Int := if pos < 0 then max (n + pos) 0 else min pos n
  l.take p.toNat ++ x :: l.drop p.toNat

/-- `copy.copy(item)` in `Sequence.insert`, at value level: a fresh leaf with
the same path, or `Sequence.__copy__`'s rebuild of a sequence, which for the
sorted non-overlapping sequences in scope reproduces the same value.  The
object identity that the copy exists to sever is modelled separately by the
heap in the copy-isolation claim. -/
def copyElem : SElem → SElem := fun e => e

/-- Python `min(l, key=...)` keeps the first minimum. -/
def pickMinGo : (SElem × Nat) → List (SElem × Nat) → (SElem × Nat)
  | best, [] => best
  | best, p :: rest => pickMinGo (if p.2 < best.2 then p else best) rest

/-- Python `max(l, key=...)` keeps the first maximum. -/
def pickMaxGo : (SElem × Nat) → List (SElem × Nat) → (SElem × Nat)
  | best, [] => best
  | best, p :: rest => pickMaxGo (if best.2 < p.2 then p else best) rest

/-- Key extraction for `_recalculate_range`: an element paired with its
adapter's `get_start()` and `get_end()` keys. -/
def keySE (e : SElem) : Except SeqErr (SElem × Nat × Nat) := do
  let s ← startV e
  let t ← endV e
  pure (e, s, t)

/-- `Sequence._recalculate_range`: wrap every element in a `SequenceAdapter`
and take `min(items, key=get_start)` / `max(items, key=get_end)` as the new
`start_item` / `end_item`.  `min()` of an empty items list raises. -/
def recalcE (tmpl : List Char) (items : List SElem) : Except SeqErr SElem :=
  match items with
  | [] => Except.error SeqErr.valueError
  | x :: rest => do
      let keyed ← (x :: rest).mapM keySE
      match keyed with
      | [] => Except.error SeqErr.valueError
      | k :: ks =>
          let mn := pickMinGo (k.1, k.2.1) (ks.map (fun p => (p.1, p.2.1)))
          let mx := pickMaxGo (k.1, k.2.2) (ks.map (fun p => (p.1, p.2.2)))
          pure (SElem.seq tmpl mn.1 mx.1 (x :: rest))

/-- `Sequence.insert(position, item)`: conform (a no-op for rich elements),
copy, insert into `items`, then `_recalculate_range`.  `append`,
`__setitem__` and both `add_in_place` paths all funnel into this. -/
def insertE (tmpl : List Char) (items : List SElem) (pos : Int) (arg : SElem) :
    Except SeqErr SElem :=
  recalcE tmpl (pyInsert items pos (copyElem arg))

/-- The index scan of `Sequence.add_sequence_in_place`: `recorded_index`
starts at `len(self)` and is set to `index - 1` for EVERY flat item whose
value exceeds the argument's start (there is no `break`). -/
def recIdxGo (sv : Nat) : Int → Int → List Nat → Int
  | cur, _, [] => cur
  | cur, i, v :: vs => recIdxGo sv (if sv < v then i - 1 else cur) (i + 1) vs

/-- `Sequence.add_sequence_in_place(sequence)`. -/
def addSeqInPlaceE (tmpl : List Char) (items : List SElem) (b : SElem) :
    Except SeqErr SElem := do
  let sv ← startV b
  let fv ← flatVals items
  insertE tmpl items (recIdxGo sv (Int.ofNat items.length) 0 fv) b

/-- `Sequence.add_in_place(item)` for an argument that is already a rich
sequence object.  `int` and digit-string arguments are first conformed to
leaf items by `_conform_to_sequence_object`, so the leaf case covers them.
For a `Sequence` argument: raise when it overlaps and does not fit, else
delegate to `add_sequence_in_place`; for a leaf: insert at the first flat
index whose stored value exceeds the new value, else append. -/
def addInPlaceE : SElem → SElem → Except SeqErr SElem
  | SElem.seq tmpl sIt eIt items, b@(SElem.seq ..) => do
      let ov ← overlapsE (SElem.seq tmpl sIt eIt items) b
      if ov then do
        let ft ← fitsE (SElem.seq tmpl sIt eIt items) b
        if ft then addSeqInPlaceE tmpl items b
        else Except.error SeqErr.overlap
      else addSeqInPlaceE tmpl items b
  | SElem.seq tmpl _ _ items, SElem.item p => do
      let v ← liftO (getValue1 p)
      let fv ← flatVals items
      match fv.findIdx? (fun x => v < x) with
      | some i => insertE tmpl items (Int.ofNat i) (SElem.item p)
      | none => insertE tmpl items (Int.ofNat items.length) (SElem.item p)
  | SElem.item _, _ => Except.error SeqErr.valueError

/-- `Sequence.__delitem__(index)`: `del self.items[index]`, with no
recalculation of the range. -/
def delItemE : SElem → Nat → SElem
  | SElem.seq t s e items, i => SElem.seq t s e (items.eraseIdx i)
  | x, _ => x

/-- `Sequence.__eq__(other)`: `itertools.izip(self, other)` pairs the
flattened leaf items up to the shorter side and compares their paths; a
non-Sequence `other` is unequal. -/
def seqEqB : SElem → SElem → Bool
  | a@(SElem.seq ..), b@(SElem.seq ..) =>
      ((flatPathsE a).zip (flatPathsE b)).all (fun pr => pr.1 == pr.2)
  | _, _ => false

/-- The items list of a sequence (empty for a leaf). -/
def itemsOf : SElem → List SElem
  | SElem.seq _ _ _ items => items
  | SElem.item _ => []

/-- The stored `end_item` (the element itself for a leaf). -/
def endItOf : SElem → SElem
  | SElem.seq _ _ e _ => e
  | x => x

/-- The stored `start_item` (the element itself for a leaf). -/
def startItOf : SElem → SElem
  | SElem.seq _ s _ _ => s
  | x => x

/-- `Sequence.__init__(template, start, end)` for a one-dimensional pound
template, combined with `Sequence.get_range_items`: reversed bounds are
swapped; `start_item`/`end_item` are fresh leaf items rendered from the
format path; `get_range_items` parses their values back (`get_start()` /
`get_end()`), returns no items when both are zero (the Empty state built by
the `is_empty_sequence` branch or by explicit zero bounds), and otherwise
materializes one leaf item per value of `Range(start, end + 1)`. -/
def seqInitE (t : Template1D) (s0 e0 : Nat) : Except SeqErr SElem := do
  let s1 := min s0 e0
  let e1 := max s0 e0
  let sIt := SElem.item (renderT t s1)
  let eIt := SElem.item (renderT t e1)
  let sv ← startV sIt
  let ev ← endV eIt
  let items :=
    if sv = 0 && ev = 0 then ([] : List SElem)
    else (List.range' (min sv ev) (max sv ev + 1 - min sv ev)).map
      (fun v => SElem.item (renderT t v))
  pure (SElem.seq (templateStrT t) sIt eIt items)

/-- Replace the first digit part of a split path (one-dimensional items:
`position` defaults to `[0]`). -/
def mapFirstDigitPart (f : List Char → List Char) : List (List Char) → List (List Char)
  | [] => []
  | p :: rest => if strIsDigit p then f p :: rest else p :: mapFirstDigitPart f rest

/-- `SequenceItem.set_value(value)` on a one-dimensional item: rewrite the
digit part zero-padded to its previous width (`'{:0Nd}'.format(value)`) and
re-join.  A path without a determinable delimiter raises in Python; it is
returned unchanged here (such paths are outside every claim's scope). -/
def setValueStr (path : List Char) (v : Nat) : List Char :=
  match pathDelimiter path with
  | none => path
  | some d =>
      joinL (mapFirstDigitPart (fun p => zfill p.length (decimalChars v))
        (splitByGroup d path))

/-- `SequenceItem.set_padding(value, position)` on a one-dimensional item:
`str(digit).zfill(value)`. -/
def setPaddingStr (path : List Char) (v : Nat) : List Char :=
  match pathDelimiter path with
  | none => path
  | some d =>
      joinL (mapFirstDigitPart (fun p => zfill v (decimalChars (parseNat p)))
        (splitByGroup d path))

mutual
/-- The leaf rewrite of `Sequence.set_padding`'s `for item in self:
item.set_padding(value, position)` (the flat iteration mutates every leaf in
place). -/
def setPadElem (v : Nat) : SElem → SElem
  | .item p => .item (setPaddingStr p v)
  | .seq t s e items => .seq t s e (setPadL v items)

def setPadL (v : Nat) : List SElem → List SElem
  | [] => []
  | e :: rest => setPadElem v e :: setPadL v rest
end

/-- Scanner replacing every maximal '#'-run of the template with `'#' *
value` (the re-templating step of `Sequence.set_padding` under the pound
codec: `digit_items[position] = self.repr_sequence['make'](value)`). -/
def setTmplPadGo (v : Nat) (run : Nat) : List Char → List Char
  | [] => if run = 0 then [] else List.replicate v '#'
  | c :: rest =>
      if c = '#' then setTmplPadGo v (run + 1) rest
      else if run = 0 then c :: setTmplPadGo v 0 rest
      else List.replicate v '#' ++ c :: setTmplPadGo v 0 rest

def setTemplatePadding (tmpl : List Char) (v : Nat) : List Char :=
  setTmplPadGo v 0 tmpl

/-- `max(set(values))`; `max()` of an empty collection raises. -/
def maxOfList : List Nat → Option Nat
  | [] => none
  | x :: xs => some (xs.foldl max x)

/-- `Sequence.set_padding(value, position=None, force)` on a one-dimensional
sequence: compute the maximum stored value, raise `ValueError` (modelled
`.paddingTooLow`) when `not force and value < len(str(max))` — the raise
happens before any mutation, so the erroring call leaves the sequence
unmodified — and otherwise rewrite every leaf and the template. -/
def seqSetPaddingE (s : SElem) (value : Nat) (force : Bool) : Except SeqErr SElem :=
  match s with
  | SElem.item _ => Except.error SeqErr.valueError
  | SElem.seq tmpl sIt eIt items => do
      let vals ← flatVals items
      match maxOfList vals with
      | none => Except.error SeqErr.valueError
      | some m =>
          if !force && value < (decimalChars m).length then
            Except.error SeqErr.paddingTooLow
          else
            pure (SElem.seq (setTemplatePadding tmpl value) sIt eIt (setPadL value items))

/-- The digit width needed to render a value: `len(str(n))`.  The last two
conjuncts of the padding claim pin its meaning down as the least positive `w`
with `n < 10^w`.  (Defined through the structural `decimalChars`, not
`Nat.log`, so that concrete instances evaluate inside the kernel.) -/
def digitsNeeded (n : Nat) : Nat := (decimalChars n).length

/-! ## The heap model for copy isolation (claim C7)

`SequenceItem` objects live in a heap of path cells addressed by index; a
`Sequence`'s stored elements are addresses.  `Sequence.insert` runs
`copy.copy(item)` — a fresh allocation carrying the argument's current path —
and stores the fresh address, so later in-place mutation of the caller's
object cannot reach the stored cell. -/

/-- `Sequence.add_in_place(item)` for a leaf item, at heap level: allocate the
copy, compute the insertion index by the value scan, store the new address.
Returns (new heap, new stored refs, address of the stored copy). -/
def addInPlaceHeap (heap : List (List Char)) (refs : List Nat) (argAddr : Nat) :
    (List (List Char)) × (List Nat) × Nat :=
  let argPath := heap.getD argAddr []
  let newAddr := heap.length
  let argVal := (getValue1 argPath).getD 0
  let vals := refs.map (fun a => (getValue1 (heap.getD a [])).getD 0)
  let pos := (vals.findIdx? (fun x => argVal < x)).getD refs.length
  (heap ++ [argPath], refs.take pos ++ newAddr :: refs.drop pos, newAddr)

/-- `SequenceItem.set_value(v)` applied through an object reference: rewrite
the cell the reference points to. -/
def setValueHeap (heap : List (List Char)) (addr : Nat) (v : Nat) : List (List Char) :=
  heap.set addr (setValueStr (heap.getD addr []) v)

/-! ## Supporting lemmas about the model -/

theorem bindE_ok {α β : Type} (a : α) (f : α → Except SeqErr β) :
    (Except.ok a : Except SeqErr α) >>= f = f a := rfl

theorem bindE_error {α β : Type} (e : SeqErr) (f : α → Except SeqErr β) :
    (Except.error e : Except SeqErr α) >>= f = Except.error e := rfl

theorem mapM_ok {α β : Type} (f : α → Except SeqErr β) (g : α → β) :
    ∀ (l : List α), (∀ x ∈ l, f x = Except.ok (g x)) → l.mapM f = Except.ok (l.map g) := by
  intro l
  induction l with
  | nil => intro _; rfl
  | cons x xs ih =>
      intro h
      rw [List.mapM_cons, h x (List.mem_cons_self ..), bindE_ok,
        ih (fun y hy => h y (List.mem_cons_of_mem _ hy)), bindE_ok]
      rfl

theorem mapM_error {α β : Type} (f : α → Except SeqErr β) :
    ∀ (l : List α) (e : SeqErr), l.mapM f = Except.error e → ∃ x ∈ l, f x = Except.error e := by
  intro l
  induction l with
  | nil => intro e h; exact absurd h (by simp [List.mapM_nil]; exact fun h => by cases h)
  | cons x xs ih =>
      intro e h
      rw [List.mapM_cons] at h
      cases hx : f x with
      | error e2 =>
          rw [hx, bindE_error] at h
          cases h
          exact ⟨x, List.mem_cons_self .., hx⟩
      | ok b =>
          rw [hx, bindE_ok] at h
          cases hm : xs.mapM f with
          | error e2 =>
              rw [hm, bindE_error] at h
              cases h
              rcases ih e hm with ⟨y, hy, hfy⟩
              exact ⟨y, List.mem_cons_of_mem _ hy, hfy⟩
          | ok bs =>
              rw [hm, bindE_ok] at h
              cases h

theorem liftO_error {α : Type} (o : Option α) (e : SeqErr) (h : liftO o = Except.error e) :
    e = SeqErr.valueError := by
  cases o with
  | none => cases h; rfl
  | some a => cases h

theorem startV_error : ∀ (x : SElem) (e : SeqErr),
    startV x = Except.error e → e = SeqErr.valueError
  | .item _, _, h => liftO_error _ _ h
  | .seq _ s _ _, e, h => startV_error s e h

theorem endV_error : ∀ (x : SElem) (e : SeqErr),
    endV x = Except.error e → e = SeqErr.valueError
  | .item _, _, h => liftO_error _ _ h
  | .seq _ _ en _, e, h => endV_error en e h

theorem keySE_error (x : SElem) (e : SeqErr) (h : keySE x = Except.error e) :
    e = SeqErr.valueError := by
  unfold keySE at h
  cases hs : startV x with
  | error e2 =>
      rw [hs, bindE_error] at h
      cases h
      exact startV_error x _ hs
  | ok sv =>
      rw [hs, bindE_ok] at h
      cases he : endV x with
      | error e2 =>
          rw [he, bindE_error] at h
          cases h
          exact endV_error x _ he
      | ok ev =>
          rw [he, bindE_ok] at h
          cases h

theorem flatVals_error (items : List SElem) (e : SeqErr)
    (h : flatVals items = Except.error e) : e = SeqErr.valueError := by
  unfold flatVals at h
  rcases mapM_error _ _ _ h with ⟨p, _, hp⟩
  exact liftO_error _ _ hp

theorem recalcE_ne_overlap (tmpl : List Char) (items : List SElem) :
    recalcE tmpl items ≠ Except.error SeqErr.overlap := by
  intro h
  cases items with
  | nil => simp [recalcE] at h
  | cons x rest =>
      simp only [recalcE] at h
      cases hm : (x :: rest).mapM keySE with
      | error e =>
          rw [hm, bindE_error] at h
          cases h
          rcases mapM_error _ _ _ hm with ⟨y, _, hy⟩
          exact absurd (keySE_error y _ hy) (by intro h2; cases h2)
      | ok keyed =>
          rw [hm, bindE_ok] at h
          cases keyed with
          | nil => cases h
          | cons k ks => cases h

theorem insertE_ne_overlap (tmpl : List Char) (items : List SElem) (pos : Int) (arg : SElem) :
    insertE tmpl items pos arg ≠ Except.error SeqErr.overlap :=
  recalcE_ne_overlap tmpl _

theorem addSeqInPlaceE_ne_overlap (tmpl : List Char) (items : List SElem) (b : SElem) :
    addSeqInPlaceE tmpl items b ≠ Except.error SeqErr.overlap := by
  unfold addSeqInPlaceE
  cases hs : startV b with
  | error e =>
      rw [bindE_error]
      intro h
      cases h
      exact absurd (startV_error b _ hs) (by intro h2; cases h2)
  | ok sv =>
      rw [bindE_ok]
      cases hv : flatVals items with
      | error e =>
          rw [bindE_error]
          intro h
          cases h
          exact absurd (flatVals_error items _ hv) (by intro h2; cases h2)
      | ok fv =>
          rw [bindE_ok]
          exact insertE_ne_overlap _ _ _ _

theorem pyInsert_ne_nil {α : Type} (l : List α) (pos : Int) (x : α) :
    pyInsert l pos x ≠ [] := by
  unfold pyInsert
  intro h
  rcases List.append_eq_nil.1 h with ⟨_, h2⟩
  cases h2

/-- `pickMinGo` returns its seed or a member, and its key is minimal. -/
theorem pickMinGo_spec (l : List (SElem × Nat)) :
    ∀ (best : SElem × Nat),
      (pickMinGo best l = best ∨ pickMinGo best l ∈ l) ∧
      (pickMinGo best l).2 ≤ best.2 ∧ (∀ p ∈ l, (pickMinGo best l).2 ≤ p.2) := by
  induction l with
  | nil => intro best; exact ⟨Or.inl rfl, Nat.le_refl _, by intro p hp; cases hp⟩
  | cons q rest ih =>
      intro best
      simp only [pickMinGo]
      by_cases hlt : q.2 < best.2
      · simp only [if_pos hlt]
        rcases ih q with ⟨hmem, hle, hall⟩
        refine ⟨?_, ?_, ?_⟩
        · rcases hmem with h | h
          · exact Or.inr (by rw [h]; exact List.mem_cons_self ..)
          · exact Or.inr (List.mem_cons_of_mem _ h)
        · exact Nat.le_trans hle (Nat.le_of_lt hlt)
        · intro p hp
          rcases List.mem_cons.1 hp with rfl | hp
          · exact hle
          · exact hall p hp
      · simp only [if_neg hlt]
        rcases ih best with ⟨hmem, hle, hall⟩
        refine ⟨?_, hle, ?_⟩
        · rcases hmem with h | h
          · exact Or.inl h
          · exact Or.inr (List.mem_cons_of_mem _ h)
        · intro p hp
          rcases List.mem_cons.1 hp with rfl | hp
          · exact Nat.le_trans hle (Nat.le_of_not_lt hlt)
          · exact hall p hp

/-- `pickMaxGo` returns its seed or a member, and its key is maximal. -/
theorem pickMaxGo_spec (l : List (SElem × Nat)) :
    ∀ (best : SElem × Nat),
      (pickMaxGo best l = best ∨ pickMaxGo best l ∈ l) ∧
      best.2 ≤ (pickMaxGo best l).2 ∧ (∀ p ∈ l, p.2 ≤ (pickMaxGo best l).2) := by
  induction l with
  | nil => intro best; exact ⟨Or.inl rfl, Nat.le_refl _, by intro p hp; cases hp⟩
  | cons q rest ih =>
      intro best
      simp only [pickMaxGo]
      by_cases hlt : best.2 < q.2
      · simp only [if_pos hlt]
        rcases ih q with ⟨hmem, hle, hall⟩
        refine ⟨?_, ?_, ?_⟩
        · rcases hmem with h | h
          · exact Or.inr (by rw [h]; exact List.mem_cons_self ..)
          · exact Or.inr (List.mem_cons_of_mem _ h)
        · exact Nat.le_trans (Nat.le_of_lt hlt) hle
        · intro p hp
          rcases List.mem_cons.1 hp with rfl | hp
          · exact hle
          · exact hall p hp
      · simp only [if_neg hlt]
        rcases ih best with ⟨hmem, hle, hall⟩
        refine ⟨?_, hle, ?_⟩
        · rcases hmem with h | h
          · exact Or.inl h
          · exact Or.inr (List.mem_cons_of_mem _ h)
        · intro p hp
          rcases List.mem_cons.1 hp with rfl | hp
          · exact Nat.le_trans (Nat.le_of_not_lt hlt) hle
          · exact hall p hp

/-- `_recalculate_range` picks an element of minimal start and one of maximal
end whenever every extraction succeeds. -/
theorem recalcE_spec (tmpl : List Char) (items : List SElem) (f g : SElem → Nat)
    (hf : ∀ x ∈ items, startV x = Except.ok (f x))
    (hg : ∀ x ∈ items, endV x = Except.ok (g x))
    (hne : items ≠ []) :
    ∃ m M, recalcE tmpl items = Except.ok (SElem.seq tmpl m M items) ∧
      m ∈ items ∧ (∀ x ∈ items, f m ≤ f x) ∧
      M ∈ items ∧ (∀ x ∈ items, g x ≤ g M) := by
  cases items with
  | nil => exact absurd rfl hne
  | cons x rest =>
      simp only [recalcE]
      have hmap : (x :: rest).mapM keySE =
          Except.ok ((x :: rest).map (fun e => (e, f e, g e))) := by
        apply mapM_ok
        intro y hy
        unfold keySE
        rw [hf y hy, bindE_ok, hg y hy, bindE_ok]
        rfl
      rw [hmap, bindE_ok]
      simp only [List.map_cons]
      have hks1 : (rest.map (fun e => (e, f e, g e))).map (fun p => (p.1, p.2.1)) =
          rest.map (fun e => (e, f e)) := by
        rw [List.map_map]
        rfl
      have hks2 : (rest.map (fun e => (e, f e, g e))).map (fun p => (p.1, p.2.2)) =
          rest.map (fun e => (e, g e)) := by
        rw [List.map_map]
        rfl
      rw [hks1, hks2]
      rcases pickMinGo_spec (rest.map (fun e => (e, f e))) (x, f x) with ⟨hmn_mem, hmn_le, hmn_all⟩
      rcases pickMaxGo_spec (rest.map (fun e => (e, g e))) (x, g x) with ⟨hmx_mem, hmx_le, hmx_all⟩
      set mn := pickMinGo (x, f x) (rest.map (fun e => (e, f e))) with hmn_def
      set mx := pickMaxGo (x, g x) (rest.map (fun e => (e, g e))) with hmx_def
      have hmn_shape : mn.1 ∈ x :: rest ∧ mn.2 = f mn.1 := by
        rcases hmn_mem with h | h
        · rw [h]; exact ⟨List.mem_cons_self .., rfl⟩
        · rcases List.mem_map.1 h with ⟨e, he, hEq⟩
          rw [← hEq]
          exact ⟨List.mem_cons_of_mem _ he, rfl⟩
      have hmx_shape : mx.1 ∈ x :: rest ∧ mx.2 = g mx.1 := by
        rcases hmx_mem with h | h
        · rw [h]; exact ⟨List.mem_cons_self .., rfl⟩
        · rcases List.mem_map.1 h with ⟨e, he, hEq⟩
          rw [← hEq]
          exact ⟨List.mem_cons_of_mem _ he, rfl⟩
      refine ⟨mn.1, mx.1, rfl, hmn_shape.1, ?_, hmx_shape.1, ?_⟩
      · intro y hy
        rcases List.mem_cons.1 hy with rfl | hy
        · exact hmn_shape.2 ▸ hmn_le
        · exact hmn_shape.2 ▸ hmn_all (y, f y) (List.mem_map_of_mem _ hy)
      · intro y hy
        rcases List.mem_cons.1 hy with rfl | hy
        · exact hmx_shape.2 ▸ hmx_le
        · exact hmx_shape.2 ▸ hmx_all (y, g y) (List.mem_map_of_mem _ hy)

theorem flatPathsL_map_item (f : Nat → List Char) :
    ∀ (l : List Nat), flatPathsL (l.map (fun v => SElem.item (f v))) = l.map f := by
  intro l
  induction l with
  | nil => rfl
  | cons x xs ih => simp [flatPathsL, flatPathsE, ih]

theorem mapM_getValue1_render (t : Template1D) (hwf : t.WF) :
    ∀ (l : List Nat),
      (l.map (renderT t)).mapM (fun p => liftO (getValue1 p)) = Except.ok l := by
  intro l
  induction l with
  | nil => rfl
  | cons x xs ih =>
      rw [List.map_cons, List.mapM_cons, getValue1_renderT t hwf x]
      rw [show liftO (some x) = (Except.ok x : Except SeqErr Nat) from rfl, bindE_ok, ih, bindE_ok]
      rfl

theorem flatVals_range (t : Template1D) (hwf : t.WF) (l : List Nat) :
    flatVals (l.map (fun v => SElem.item (renderT t v))) = Except.ok l := by
  unfold flatVals
  rw [flatPathsL_map_item]
  exact mapM_getValue1_render t hwf l

theorem foldl_max_range' : ∀ (n s : Nat), (List.range' (s + 1) n).foldl max s = s + n := by
  intro n
  induction n with
  | zero => intro s; rfl
  | succ k ih =>
      intro s
      rw [List.range'_succ, List.foldl_cons]
      have : max s (s + 1) = s + 1 := by omega
      rw [this, ih (s + 1)]
      omega

theorem maxOfList_range' (s n : Nat) :
    maxOfList (List.range' s (n + 1)) = some (s + n) := by
  rw [List.range'_succ]
  simp only [maxOfList]
  rw [foldl_max_range']

deriving instance DecidableEq for Except

/-- A reference template shared by the concrete instances below:
the 1D pound template `/a/im.##.tif`. -/
def tEx : Template1D := ⟨"/a/".data, "im".data, 2, ".tif".data⟩

/-! ## The claims -/

/-- Claim C8: for every path string on which the tokenizer's delimiter
selection succeeds, concatenating the tuple returned by the split operation
with the empty separator reproduces the original path exactly:
`''.join(split(path)) == path`. -/
theorem claim_C8_split_join (path : List Char) (d : PDelim)
    (h : pathDelimiter path = some d) :
    joinL (splitByGroup d path) = path :=
  joinL_splitByGroup d path

theorem claim_C8_split_join_witness :
    pathDelimiter (String.data "/a/im.0007.tif") = some PDelim.dot ∧
    joinL (splitByGroup PDelim.dot (String.data "/a/im.0007.tif")) =
      String.data "/a/im.0007.tif" :=
  ⟨rfl, claim_C8_split_join _ _ rfl⟩

/-- Claim C2, amended: for every `0 ≤ start ≤ end` and every `width ≥ 1`,
iterating `UdimBaseIterator(start, end, width)` yields, in increasing order
of `v`, exactly `(v // width) * 100 + v % width` for each `v` in
`[start, end)`.  The carry value 100 appears when the end bound is 11 (as in
`Sequence.get_range_items`, which increments the end by one), not 10. -/
theorem claim_C2_udim_iteration (s e w : Nat) (hse : s ≤ e) (hw : 1 ≤ w) :
    udimBaseIterate s e w =
      Except.ok ((List.range' s (e - s)).map (fun v => v / w * 100 + v % w)) ∧
    (∀ i, i < e - s →
      ((List.range' s (e - s)).map (fun v => v / w * 100 + v % w))[i]? =
        some ((s + i) / w * 100 + (s + i) % w)) ∧
    udimBaseIterate 0 11 10 = Except.ok [0, 1, 2, 3, 4, 5, 6, 7, 8, 9, 100] := by
  refine ⟨?_, ?_, by decide⟩
  · simp only [udimBaseIterate]
    rw [Nat.min_eq_left hse, Nat.max_eq_right hse, if_neg (by omega)]
  · intro i hi
    rw [List.getElem?_map, List.getElem?_range' s 1 hi]
    simp

theorem claim_C2_udim_iteration_witness :
    (0 : Nat) ≤ 10 ∧ (1 : Nat) ≤ 10 ∧
    (udimBaseIterate 0 10 10 =
      Except.ok ((List.range' 0 (10 - 0)).map (fun v => v / 10 * 100 + v % 10)) ∧
    (∀ i, i < 10 - 0 →
      ((List.range' 0 (10 - 0)).map (fun v => v / 10 * 100 + v % 10))[i]? =
        some ((0 + i) / 10 * 100 + (0 + i) % 10)) ∧
    udimBaseIterate 0 11 10 = Except.ok [0, 1, 2, 3, 4, 5, 6, 7, 8, 9, 100]) :=
  ⟨by decide, by decide, claim_C2_udim_iteration 0 10 10 (by decide) (by decide)⟩

/-- Claim C2, counterexample to the claim as stated: `UdimBaseIterator(0, 10)`
yields `[0, 1, ..., 9]` — `v` ranges over the half-open `[0, 10)`, so the
carry value 100 never appears — and not the claimed
`[0, 1, ..., 8, 9, 100]`; moreover with `width = 0` (the claim quantifies
over every width) the first yield divides by zero. -/
theorem claim_C2_counterexample :
    udimBaseIterate 0 10 10 = Except.ok [0, 1, 2, 3, 4, 5, 6, 7, 8, 9] ∧
    udimBaseIterate 0 10 10 ≠ Except.ok [0, 1, 2, 3, 4, 5, 6, 7, 8, 9, 100] ∧
    udimBaseIterate 0 1 0 = Except.error UdimErr.zeroDiv :=
  ⟨by decide, by decide, by decide⟩

/-- Claim C1, amended: for every well-formed 1D template and naturals
`s ≤ e` with `(s, e) ≠ (0, 0)`, `Sequence(template, s, e)` materializes
exactly `e - s + 1` leaf items, one per integer value in `[s, e]`
inclusive (the flat-mode iteration returns exactly the rendered path of each
value).  `(0, 0)` builds the documented Empty sequence instead, and negative
bounds make value extraction fail in the constructor. -/
theorem claim_C1_dense_construction (t : Template1D) (hwf : t.WF) (s e : Nat)
    (hse : s ≤ e) (hne : ¬(s = 0 ∧ e = 0)) :
    ∃ sq, seqInitE t s e = Except.ok sq ∧
      flatPathsE sq = (List.range' s (e - s + 1)).map (renderT t) ∧
      (flatPathsE sq).length = e - s + 1 := by
  have hs : startV (SElem.item (renderT t s)) = Except.ok s := by
    simp only [startV]
    rw [getValue1_renderT t hwf s]
    rfl
  have he : endV (SElem.item (renderT t e)) = Except.ok e := by
    simp only [endV]
    rw [getValue1_renderT t hwf e]
    rfl
  have hcond : ¬((decide (s = 0) && decide (e = 0)) = true) := by
    simp only [Bool.and_eq_true, decide_eq_true_eq]
    exact hne
  refine ⟨SElem.seq (templateStrT t) (SElem.item (renderT t s)) (SElem.item (renderT t e))
      ((List.range' s (e - s + 1)).map (fun v => SElem.item (renderT t v))), ?_, ?_, ?_⟩
  · simp only [seqInitE]
    rw [Nat.min_eq_left hse, Nat.max_eq_right hse, hs, bindE_ok, he, bindE_ok]
    rw [if_neg hcond]
    rw [Nat.min_eq_left hse, Nat.max_eq_right hse]
    rw [show e + 1 - s = e - s + 1 from by omega]
    rfl
  · simp only [flatPathsE]
    rw [flatPathsL_map_item]
  · simp only [flatPathsE]
    rw [flatPathsL_map_item]
    simp

theorem claim_C1_dense_construction_witness :
    tEx.WF ∧ (1 : Nat) ≤ 3 ∧ ¬((1 : Nat) = 0 ∧ (3 : Nat) = 0) ∧
    (∃ sq, seqInitE tEx 1 3 = Except.ok sq ∧
      flatPathsE sq = (List.range' 1 (3 - 1 + 1)).map (renderT tEx) ∧
      (flatPathsE sq).length = 3 - 1 + 1) :=
  ⟨by decide, by decide, by decide,
    claim_C1_dense_construction tEx (by decide) 1 3 (by decide) (by decide)⟩

/-- Claim C1, counterexample to the claim as stated: with `s = e = 0`
(allowed by `s ≤ e`) the constructor takes the `is_empty_sequence` path of
`Sequence.__init__` / the zero test of `get_range_items` and materializes no
items at all, not `e - s + 1 = 1`. -/
theorem claim_C1_counterexample :
    (seqInitE tEx 0 0).map (fun sq => (flatPathsE sq).length) ≠
      Except.ok (0 - 0 + 1) := by decide

/-- Claim C7: after `seq.add_in_place(item)`, the stored element is a copy
(`copy.copy` in `Sequence.insert` allocates a fresh cell), so a subsequent
in-place mutation of the caller's original item (here `set_value`) leaves the
stored element's path unchanged; the stored address is distinct from the
argument's. -/
theorem claim_C7_copy_isolation (heap : List (List Char)) (refs : List Nat)
    (argAddr : Nat) (v : Nat) (h : argAddr < heap.length) :
    (setValueHeap (addInPlaceHeap heap refs argAddr).1 argAddr v).getD
        (addInPlaceHeap heap refs argAddr).2.2 [] = heap.getD argAddr [] ∧
    (addInPlaceHeap heap refs argAddr).2.2 ≠ argAddr := by
  have hstored : (addInPlaceHeap heap refs argAddr).2.2 = heap.length := rfl
  have h1 : (addInPlaceHeap heap refs argAddr).1 = heap ++ [heap.getD argAddr []] := rfl
  constructor
  · rw [hstored, h1]
    unfold setValueHeap
    rw [List.getD_eq_getElem?_getD, List.getElem?_set_ne (by omega)]
    rw [List.getElem?_append_right (Nat.le_refl _)]
    simp
  · rw [hstored]
    omega

theorem claim_C7_copy_isolation_witness :
    (0 : Nat) < [String.data "/a/im.07.tif"].length ∧
    ((setValueHeap (addInPlaceHeap [String.data "/a/im.07.tif"] [] 0).1 0 9).getD
        (addInPlaceHeap [String.data "/a/im.07.tif"] [] 0).2.2 [] =
      [String.data "/a/im.07.tif"].getD 0 [] ∧
    (addInPlaceHeap [String.data "/a/im.07.tif"] [] 0).2.2 ≠ 0) :=
  ⟨by decide, claim_C7_copy_isolation _ _ _ 9 (by decide)⟩

/-- Claim C3 / the `add_sequence_in_place` defect, evaluated at the failing
input: adding `Sequence('/a/im.##.tif', 10, 20)` into
`Sequence('/a/im.##.tif', 35, 37)` sets `recorded_index` to the LAST flat
index whose value exceeds the new start, minus one (the loop has no `break`),
here `2 - 1 = 1`, and inserts the new sequence between the leaves 35 and 36.
The effective starts of the stored elements end up `[35, 10, 36, 37]` — not
sorted, and not the placement before the first exceeding element (index 0)
that the claim and the method's own docstring require. -/
theorem claim_C3_add_sequence_misplaces :
    ((seqInitE tEx 35 37).bind fun a => (seqInitE tEx 10 20).bind fun b =>
      (addInPlaceE a b).bind fun r => (itemsOf r).mapM startV) =
      Except.ok [35, 10, 36, 37] ∧
    ¬ List.Sorted (· ≤ ·) [35, 10, 36, 37] :=
  ⟨by decide, by decide⟩

/-- Claim C6, counterexample to the claim as stated: deleting the last item
of `Sequence('/a/im.##.tif', 1, 3)` with `__delitem__` leaves `end_item`
parsing to 3 while the remaining items' effective ends are `[1, 2]` —
`__delitem__` never calls `_recalculate_range`, so `end_item` is stale. -/
theorem claim_C6_counterexample :
    ((seqInitE tEx 1 3).map (fun sq => delItemE sq 2)).bind
        (fun sq => endV (endItOf sq)) = Except.ok 3 ∧
    ((seqInitE tEx 1 3).map (fun sq => delItemE sq 2)).bind
        (fun sq => (itemsOf sq).mapM endV) = Except.ok [1, 2] ∧
    (3 : Nat) ∉ [1, 2] :=
  ⟨by decide, by decide, by decide⟩

/-- Claim C6, amended: after every structural mutation that funnels through
`Sequence.insert` — `insert`, `append`, `add_in_place`, `__setitem__` — the
new `start_item` is an element of `items` of minimal effective start and the
new `end_item` an element of maximal effective end (`_recalculate_range`).
`__delitem__` performs no recomputation (see the counterexample). -/
theorem claim_C6_insert_recalculates (tmpl : List Char) (items : List SElem)
    (pos : Int) (arg : SElem) (f g : SElem → Nat)
    (hf : ∀ x ∈ pyInsert items pos (copyElem arg), startV x = Except.ok (f x))
    (hg : ∀ x ∈ pyInsert items pos (copyElem arg), endV x = Except.ok (g x)) :
    ∃ m M, insertE tmpl items pos arg =
        Except.ok (SElem.seq tmpl m M (pyInsert items pos (copyElem arg))) ∧
      m ∈ pyInsert items pos (copyElem arg) ∧
      (∀ x ∈ pyInsert items pos (copyElem arg), f m ≤ f x) ∧
      M ∈ pyInsert items pos (copyElem arg) ∧
      (∀ x ∈ pyInsert items pos (copyElem arg), g x ≤ g M) := by
  unfold insertE
  exact recalcE_spec tmpl _ f g hf hg (pyInsert_ne_nil _ _ _)

theorem claim_C6_insert_recalculates_witness :
    (∀ x ∈ pyInsert [SElem.item (renderT tEx 1), SElem.item (renderT tEx 2)] 2
        (copyElem (SElem.item (renderT tEx 3))),
      startV x = Except.ok ((fun y => (startV y).toOption.getD 0) x)) ∧
    (∀ x ∈ pyInsert [SElem.item (renderT tEx 1), SElem.item (renderT tEx 2)] 2
        (copyElem (SElem.item (renderT tEx 3))),
      endV x = Except.ok ((fun y => (endV y).toOption.getD 0) x)) ∧
    (∃ m M, insertE (templateStrT tEx)
        [SElem.item (renderT tEx 1), SElem.item (renderT tEx 2)] 2
        (SElem.item (renderT tEx 3)) =
        Except.ok (SElem.seq (templateStrT tEx) m M
          (pyInsert [SElem.item (renderT tEx 1), SElem.item (renderT tEx 2)] 2
            (copyElem (SElem.item (renderT tEx 3))))) ∧
      m ∈ pyInsert [SElem.item (renderT tEx 1), SElem.item (renderT tEx 2)] 2
          (copyElem (SElem.item (renderT tEx 3))) ∧
      (∀ x ∈ pyInsert [SElem.item (renderT tEx 1), SElem.item (renderT tEx 2)] 2
          (copyElem (SElem.item (renderT tEx 3))),
        (fun y => (startV y).toOption.getD 0) m ≤ (fun y => (startV y).toOption.getD 0) x) ∧
      M ∈ pyInsert [SElem.item (renderT tEx 1), SElem.item (renderT tEx 2)] 2
          (copyElem (SElem.item (renderT tEx 3))) ∧
      (∀ x ∈ pyInsert [SElem.item (renderT tEx 1), SElem.item (renderT tEx 2)] 2
          (copyElem (SElem.item (renderT tEx 3))),
        (fun y => (endV y).toOption.getD 0) x ≤ (fun y => (endV y).toOption.getD 0) M)) :=
  ⟨by decide, by decide,
    claim_C6_insert_recalculates (templateStrT tEx)
      [SElem.item (renderT tEx 1), SElem.item (renderT tEx 2)] 2
      (SElem.item (renderT tEx 3))
      (fun y => (startV y).toOption.getD 0) (fun y => (endV y).toOption.getD 0)
      (by decide) (by decide)⟩

/-- Claim C4: for sequences `a` and `b`, if `a.fits(b)` is true then
`a.add_in_place(b)` does not raise the overlap error; the overlap error is
raised exactly when `b` overlaps `a` and does not fit `a`. -/
theorem claim_C4_fits_overlap_exclusivity
    (ta : List Char) (sa ea : SElem) (ia : List SElem)
    (tb : List Char) (sb eb : SElem) (ib : List SElem)
    (ov ft : Bool)
    (hov : overlapsE (SElem.seq ta sa ea ia) (SElem.seq tb sb eb ib) = Except.ok ov)
    (hft : fitsE (SElem.seq ta sa ea ia) (SElem.seq tb sb eb ib) = Except.ok ft) :
    (addInPlaceE (SElem.seq ta sa ea ia) (SElem.seq tb sb eb ib) =
        Except.error SeqErr.overlap ↔ ov = true ∧ ft = false) ∧
    (ft = true → addInPlaceE (SElem.seq ta sa ea ia) (SElem.seq tb sb eb ib) ≠
        Except.error SeqErr.overlap) := by
  simp only [addInPlaceE]
  rw [hov, bindE_ok]
  cases ov with
  | false =>
      rw [if_neg (by decide : ¬(false = true))]
      exact ⟨⟨fun h => absurd h (addSeqInPlaceE_ne_overlap _ _ _),
        fun h => by cases h.1⟩, fun _ => addSeqInPlaceE_ne_overlap _ _ _⟩
  | true =>
      rw [if_pos rfl, hft, bindE_ok]
      cases ft with
      | true =>
          rw [if_pos rfl]
          exact ⟨⟨fun h => absurd h (addSeqInPlaceE_ne_overlap _ _ _),
            fun h => by cases h.2⟩, fun _ => addSeqInPlaceE_ne_overlap _ _ _⟩
      | false =>
          rw [if_neg (by decide : ¬(false = true))]
          exact ⟨⟨fun _ => ⟨rfl, rfl⟩, fun _ => rfl⟩, fun h => by cases h⟩

theorem claim_C4_fits_overlap_exclusivity_witness :
    overlapsE (SElem.seq (templateStrT tEx) (SElem.item (renderT tEx 10))
        (SElem.item (renderT tEx 20)) [SElem.item (renderT tEx 10), SElem.item (renderT tEx 20)])
      (SElem.seq (templateStrT tEx) (SElem.item (renderT tEx 12))
        (SElem.item (renderT tEx 15)) [SElem.item (renderT tEx 12), SElem.item (renderT tEx 15)]) =
      Except.ok true ∧
    fitsE (SElem.seq (templateStrT tEx) (SElem.item (renderT tEx 10))
        (SElem.item (renderT tEx 20)) [SElem.item (renderT tEx 10), SElem.item (renderT tEx 20)])
      (SElem.seq (templateStrT tEx) (SElem.item (renderT tEx 12))
        (SElem.item (renderT tEx 15)) [SElem.item (renderT tEx 12), SElem.item (renderT tEx 15)]) =
      Except.ok true ∧
    ((addInPlaceE (SElem.seq (templateStrT tEx) (SElem.item (renderT tEx 10))
        (SElem.item (renderT tEx 20)) [SElem.item (renderT tEx 10), SElem.item (renderT tEx 20)])
      (SElem.seq (templateStrT tEx) (SElem.item (renderT tEx 12))
        (SElem.item (renderT tEx 15)) [SElem.item (renderT tEx 12), SElem.item (renderT tEx 15)]) =
        Except.error SeqErr.overlap ↔ true = true ∧ true = false) ∧
    (true = true → addInPlaceE (SElem.seq (templateStrT tEx) (SElem.item (renderT tEx 10))
        (SElem.item (renderT tEx 20)) [SElem.item (renderT tEx 10), SElem.item (renderT tEx 20)])
      (SElem.seq (templateStrT tEx) (SElem.item (renderT tEx 12))
        (SElem.item (renderT tEx 15)) [SElem.item (renderT tEx 12), SElem.item (renderT tEx 15)]) ≠
        Except.error SeqErr.overlap)) :=
  ⟨rfl, rfl, claim_C4_fits_overlap_exclusivity _ _ _ _ _ _ _ _ true true rfl rfl⟩

theorem hasMatchingName_comm (a b : SElem) : hasMatchingName a b = hasMatchingName b a := by
  unfold hasMatchingName
  by_cases hEq : fmtPath a = fmtPath b
  · simp [hEq]
  · simp [hEq, Ne.symm hEq]

/-- Claim C5: `a.overlaps(b) == b.overlaps(a)`, and overlaps is true exactly
when the numeric ranges intersect and the two sequences render under the same
format string. -/
theorem claim_C5_overlaps_symm_characterization (a b : SElem) (sa ea sb eb : Nat)
    (hsa : startV a = Except.ok sa) (hea : endV a = Except.ok ea) (ha : sa ≤ ea)
    (hsb : startV b = Except.ok sb) (heb : endV b = Except.ok eb) (hb : sb ≤ eb) :
    overlapsE a b = overlapsE b a ∧
    (overlapsE a b = Except.ok true ↔
      ((sb ≤ ea ∧ sa ≤ eb) ∧ fmtPath a = fmtPath b)) := by
  have hab : isLeftOfE a b = Except.ok (decide (sa < eb) && decide (ea < sb)) := by
    unfold isLeftOfE
    rw [hsa, bindE_ok, hea, bindE_ok, hsb, bindE_ok, heb, bindE_ok]
    rfl
  have hba : isLeftOfE b a = Except.ok (decide (sb < ea) && decide (eb < sa)) := by
    unfold isLeftOfE
    rw [hsb, bindE_ok, heb, bindE_ok, hsa, bindE_ok, hea, bindE_ok]
    rfl
  have hov1 : overlapsE a b = Except.ok
      ((!((decide (sa < eb) && decide (ea < sb)) || (decide (sb < ea) && decide (eb < sa)))) &&
        hasMatchingName a b) := by
    unfold overlapsE valuesOverlapE
    rw [hab, bindE_ok, hba, bindE_ok]
    rfl
  have hov2 : overlapsE b a = Except.ok
      ((!((decide (sb < ea) && decide (eb < sa)) || (decide (sa < eb) && decide (ea < sb)))) &&
        hasMatchingName b a) := by
    unfold overlapsE valuesOverlapE
    rw [hba, bindE_ok, hab, bindE_ok]
    rfl
  constructor
  · rw [hov1, hov2, Bool.or_comm, hasMatchingName_comm]
  · rw [hov1]
    simp only [Except.ok.injEq, Bool.and_eq_true, Bool.or_eq_true, Bool.not_eq_true',
      Bool.or_eq_false_iff, Bool.and_eq_false_iff, decide_eq_true_eq, decide_eq_false_iff_not,
      Nat.not_lt, hasMatchingName, beq_iff_eq]
    constructor
    · rintro ⟨⟨h1, h2⟩, h3⟩
      exact ⟨by omega, h3⟩
    · rintro ⟨⟨h1, h2⟩, h3⟩
      exact ⟨by omega, h3⟩

theorem claim_C5_overlaps_symm_characterization_witness :
    startV (SElem.seq (templateStrT tEx) (SElem.item (renderT tEx 10))
        (SElem.item (renderT tEx 20)) [SElem.item (renderT tEx 10)]) = Except.ok 10 ∧
    endV (SElem.seq (templateStrT tEx) (SElem.item (renderT tEx 10))
        (SElem.item (renderT tEx 20)) [SElem.item (renderT tEx 10)]) = Except.ok 20 ∧
    (10 : Nat) ≤ 20 ∧
    startV (SElem.seq (templateStrT tEx) (SElem.item (renderT tEx 18))
        (SElem.item (renderT tEx 24)) [SElem.item (renderT tEx 18)]) = Except.ok 18 ∧
    endV (SElem.seq (templateStrT tEx) (SElem.item (renderT tEx 18))
        (SElem.item (renderT tEx 24)) [SElem.item (renderT tEx 18)]) = Except.ok 24 ∧
    (18 : Nat) ≤ 24 ∧
    (overlapsE (SElem.seq (templateStrT tEx) (SElem.item (renderT tEx 10))
        (SElem.item (renderT tEx 20)) [SElem.item (renderT tEx 10)])
      (SElem.seq (templateStrT tEx) (SElem.item (renderT tEx 18))
        (SElem.item (renderT tEx 24)) [SElem.item (renderT tEx 18)]) =
      overlapsE (SElem.seq (templateStrT tEx) (SElem.item (renderT tEx 18))
        (SElem.item (renderT tEx 24)) [SElem.item (renderT tEx 18)])
      (SElem.seq (templateStrT tEx) (SElem.item (renderT tEx 10))
        (SElem.item (renderT tEx 20)) [SElem.item (renderT tEx 10)]) ∧
    (overlapsE (SElem.seq (templateStrT tEx) (SElem.item (renderT tEx 10))
        (SElem.item (renderT tEx 20)) [SElem.item (renderT tEx 10)])
      (SElem.seq (templateStrT tEx) (SElem.item (renderT tEx 18))
        (SElem.item (renderT tEx 24)) [SElem.item (renderT tEx 18)]) = Except.ok true ↔
      (((18 : Nat) ≤ 20 ∧ (10 : Nat) ≤ 24) ∧
        fmtPath (SElem.seq (templateStrT tEx) (SElem.item (renderT tEx 10))
          (SElem.item (renderT tEx 20)) [SElem.item (renderT tEx 10)]) =
        fmtPath (SElem.seq (templateStrT tEx) (SElem.item (renderT tEx 18))
          (SElem.item (renderT tEx 24)) [SElem.item (renderT tEx 18)])))) :=
  ⟨rfl, rfl, by decide, rfl, rfl, by decide,
    claim_C5_overlaps_symm_characterization _ _ 10 20 18 24 rfl rfl (by decide) rfl rfl (by decide)⟩

/-- Claim C9: on a non-empty one-dimensional sequence, `set_padding(value)`
with `force=False` raises exactly when `value` is smaller than the decimal
digit width needed to render the current maximum item value (`digitsNeeded m`
is the least positive `w` with `m < 10^w`, pinned by the last two conjuncts);
the raise happens before any mutation, so the erroring call returns no
modified sequence. -/
theorem claim_C9_padding_lower_bound (tmpl : List Char) (sIt eIt : SElem)
    (items : List SElem) (v : Nat) (vals : List Nat) (m : Nat)
    (hvals : flatVals items = Except.ok vals) (hm : maxOfList vals = some m) :
    (seqSetPaddingE (SElem.seq tmpl sIt eIt items) v false =
        Except.error SeqErr.paddingTooLow ↔ v < digitsNeeded m) ∧
    m < 10 ^ digitsNeeded m ∧
    (∀ w, 0 < w → m < 10 ^ w → digitsNeeded m ≤ w) := by
  have hd : digitsNeeded m = Nat.log 10 m + 1 := decimalChars_length m
  refine ⟨?_, ?_, ?_⟩
  · simp only [seqSetPaddingE]
    rw [hvals, bindE_ok]
    simp only [hm]
    have hlen : (decimalChars m).length = digitsNeeded m := rfl
    rw [hlen]
    by_cases hlt : v < digitsNeeded m
    · rw [if_pos (by simp [hlt])]
      exact ⟨(fun _ => hlt), (fun _ => rfl)⟩
    · rw [if_neg (by simp [hlt])]
      exact ⟨(fun h => by cases h), (fun h => absurd h hlt)⟩
  · rw [hd]
    exact Nat.lt_pow_succ_log_self (by norm_num) m
  · intro w hw hpow
    rw [hd]
    by_cases hm0 : m = 0
    · subst hm0
      simp
      omega
    · have := Nat.log_lt_of_lt_pow hm0 hpow
      omega

/-- The template `/a.####.tif` of the claim's concrete example. -/
def tPad : Template1D := ⟨"/".data, "a".data, 4, ".tif".data⟩

/-- The dense items of `Sequence('/a.####.tif', 0, 10000)`. -/
def itemsPad : List SElem :=
  (List.range' 0 10001).map (fun v => SElem.item (renderT tPad v))

theorem claim_C9_padding_lower_bound_witness :
    flatVals itemsPad = Except.ok (List.range' 0 10001) ∧
    maxOfList (List.range' 0 10001) = some 10000 ∧
    (seqSetPaddingE (SElem.seq (templateStrT tPad) (SElem.item (renderT tPad 0))
        (SElem.item (renderT tPad 10000)) itemsPad) 2 false =
      Except.error SeqErr.paddingTooLow ↔ 2 < digitsNeeded 10000) ∧
    2 < digitsNeeded 10000 :=
  ⟨flatVals_range tPad (by decide) (List.range' 0 10001),
   maxOfList_range' 0 10000,
   (claim_C9_padding_lower_bound (templateStrT tPad) (SElem.item (renderT tPad 0))
      (SElem.item (renderT tPad 10000)) itemsPad 2 (List.range' 0 10001) 10000
      (flatVals_range tPad (by decide) (List.range' 0 10001))
      (maxOfList_range' 0 10000)).1,
   by decide⟩

theorem zipAllSelf_left :
    ∀ (xs ys : List (List Char)),
      (xs.zip (xs ++ ys)).all (fun pr => pr.1 == pr.2) = true := by
  intro xs ys
  induction xs with
  | nil => rfl
  | cons x rest ih =>
      rw [List.cons_append, List.zip_cons_cons, List.all_cons, ih]
      simp

theorem zipAllSelf_right :
    ∀ (xs ys : List (List Char)),
      ((xs ++ ys).zip xs).all (fun pr => pr.1 == pr.2) = true := by
  intro xs ys
  induction xs with
  | nil => simp
  | cons x rest ih =>
      rw [List.cons_append, List.zip_cons_cons, List.all_cons, ih]
      simp

/-- Claim C10: `Sequence.__eq__` compares flattened leaf paths only pairwise
up to the length of the shorter side, so `a == b` is true whenever the
flattened leaf-path list of one side is a prefix of the other's; in
particular an empty sequence (empty flat list) compares equal to every
sequence. -/
theorem claim_C10_eq_prefix (ta : List Char) (sa ea : SElem) (ia : List SElem)
    (tb : List Char) (sb eb : SElem) (ib : List SElem)
    (h : (∃ u, flatPathsE (SElem.seq ta sa ea ia) ++ u =
            flatPathsE (SElem.seq tb sb eb ib)) ∨
         (∃ u, flatPathsE (SElem.seq tb sb eb ib) ++ u =
            flatPathsE (SElem.seq ta sa ea ia))) :
    seqEqB (SElem.seq ta sa ea ia) (SElem.seq tb sb eb ib) = true := by
  simp only [seqEqB]
  rcases h with ⟨u, hu⟩ | ⟨u, hu⟩
  · rw [← hu]
    exact zipAllSelf_left _ _
  · rw [← hu]
    exact zipAllSelf_right _ _

theorem claim_C10_eq_prefix_witness :
    ((∃ u, flatPathsE (SElem.seq (templateStrT tEx) (SElem.item (renderT tEx 0))
          (SElem.item (renderT tEx 0)) []) ++ u =
        flatPathsE (SElem.seq (templateStrT tEx) (SElem.item (renderT tEx 1))
          (SElem.item (renderT tEx 1)) [SElem.item (renderT tEx 1)])) ∨
      (∃ u, flatPathsE (SElem.seq (templateStrT tEx) (SElem.item (renderT tEx 1))
          (SElem.item (renderT tEx 1)) [SElem.item (renderT tEx 1)]) ++ u =
        flatPathsE (SElem.seq (templateStrT tEx) (SElem.item (renderT tEx 0))
          (SElem.item (renderT tEx 0)) []))) ∧
    seqEqB (SElem.seq (templateStrT tEx) (SElem.item (renderT tEx 0))
        (SElem.item (renderT tEx 0)) [])
      (SElem.seq (templateStrT tEx) (SElem.item (renderT tEx 1))
        (SElem.item (renderT tEx 1)) [SElem.item (renderT tEx 1)]) = true :=
  ⟨Or.inl ⟨[renderT tEx 1], rfl⟩,
   claim_C10_eq_prefix _ _ _ _ _ _ _ _ (Or.inl ⟨[renderT tEx 1], rfl⟩)⟩

end Seqr
